import Mathlib

/-!
Verification of the non-transitive dice game (`src/game.js`).

The JavaScript source is embedded shallowly:

* `Dice` mirrors the `Dice` class (a list of integer face values; `roll`
  is the index lookup `this.values[index]`, returning `Option` since an
  out-of-bounds JS lookup yields `undefined`).
* The SHA3-256 HMAC primitive of node's `crypto` module is external to the
  repository, so it is abstracted as an explicit function argument
  `hmacPrim : String → String → String`; `calculateHMAC` mirrors
  `FairRandomGenerator.calculateHMAC`, which stringifies the numeric
  message before feeding it to the primitive.
* `ProbabilityCalculator.calculateProbabilities` is embedded with JS
  number arithmetic modelled exactly over `ℚ` and `toFixed(2)` modelled by
  `toFixed2`, which returns the displayed quantity in hundredths of a
  percent (`"55.56%"` becomes `pct 5556`); the diagonal marker `'-'` is
  `ProbEntry.dash`.
* Interactive runs are modelled over an explicit list of raw inputs.  A raw
  input is `quit` (the literal `"X"`), `help` (the literal `"?"`) or
  `text p` where `p : Option Int` is the `parseInt` result of the line
  (`none` models `NaN`).  `Game.promptUser` intercepts `"?"` itself
  (lines 220-222 of the source): it shows the help table and re-issues the
  same prompt, so the `'?'` checks in its callers are unreachable.
* Randomness (`crypto.randomInt`, `crypto.randomBytes`) is modelled by
  passing in the stream of values the generator would produce: a list of
  `Commitment`s (key + secret value) for `fairRoll`, a list of bits for
  `determineFirstMove`.
-/

/-- The `Dice` class: an ordered list of integer face values. -/
structure Dice where
  values : List Int
deriving Repr, DecidableEq

/-- `get length()` of the `Dice` class. -/
def Dice.length (d : Dice) : Nat := d.values.length

/-- `Dice.roll(index)` is `this.values[index]`; a JS out-of-bounds lookup
yields `undefined`, modelled by `none`. -/
def Dice.roll (d : Dice) (index : Nat) : Option Int := d.values[index]?

/-- `FairRandomGenerator.calculateHMAC(key, message)`: the external
SHA3-256 HMAC primitive is applied to the key and the stringified message
(`message.toString()` in the source). -/
def calculateHMAC (hmacPrim : String → String → String) (key : String)
    (message : Nat) : String :=
  hmacPrim key (toString message)

/-- Modelled from the spec: the contract
`verify(key, secretValue, digest) -> bool` of the Commitment Generator
(spec §4.1) is described in the specification but absent from
`src/game.js`; following the spec's words it recomputes
`HMAC(key, encode(secretValue))` and checks equality with `digest`. -/
def verify (hmacPrim : String → String → String) (key : String)
    (secretValue : Nat) (digest : String) : Bool :=
  calculateHMAC hmacPrim key secretValue == digest

/-- One entry of the win-probability matrix: the diagonal marker `'-'`, or a
percentage displayed with two decimals, carried as an integer number of
hundredths of a percent. -/
inductive ProbEntry where
  | dash : ProbEntry
  | pct (hundredths : Int) : ProbEntry
deriving Repr, DecidableEq

/-- JS `Number.prototype.toFixed(2)` on a nonnegative value: the nearest
integer number of hundredths, half-way cases taking the larger candidate
(ECMAScript picks the larger `n` on ties); the JS float arithmetic is
modelled exactly over `ℚ`. -/
def toFixed2 (x : ℚ) : Int := Int.floor (100 * x + 1 / 2)

/-- The inner double loop of `calculateProbabilities`: for each face of
`di`, count the faces of `dj` it strictly beats, accumulating into `wins`. -/
def winsCount (di dj : Dice) : Nat :=
  di.values.foldl (fun wins a => wins + dj.values.countP (fun b => decide (a > b))) 0

/-- `ProbabilityCalculator.calculateProbabilities(dice)`: an `n × n` matrix;
`'-'` on the diagonal, otherwise `((wins / (li * lj)) * 100).toFixed(2)`. -/
def calculateProbabilities (dice : List Dice) : List (List ProbEntry) :=
  dice.enum.map fun pi =>
    dice.enum.map fun pj =>
      if pi.1 = pj.1 then ProbEntry.dash
      else ProbEntry.pct (toFixed2
        ((winsCount pi.2 pj.2 : ℚ) / ((pi.2.length : ℚ) * (pj.2.length : ℚ)) * 100))

/-- Entry `m[i][j]` of a matrix built as a list of rows. -/
def matrixEntry (m : List (List ProbEntry)) (i j : Nat) : Option ProbEntry :=
  (m[i]?).bind fun row => row[j]?

/-- The specification's counting formula for an off-diagonal entry: the
number of pairs `(a, b)` with `a` a face of `di`, `b` a face of `dj` and
`a > b`. -/
def specPairCount (di dj : Dice) : Nat :=
  ((di.values.product dj.values).filter fun p => decide (p.1 > p.2)).length

/-- One raw line of user input, as the source classifies it: the literal
`"X"`, the literal `"?"`, or any other text carried as its `parseInt`
result (`none` models `NaN`). -/
inductive RawInput where
  | quit : RawInput
  | help : RawInput
  | text (parsed : Option Int) : RawInput
deriving Repr, DecidableEq

/-- The game session state visible to `showHelp`: the full die set held by
the `Game` instance. -/
structure Session where
  dice : List Dice
deriving Repr, DecidableEq

/-- `Game.showHelp()`: computes the win-probability matrix over the
session's full die set (the table rendering is pure display). -/
def showHelp (s : Session) : List (List ProbEntry) :=
  calculateProbabilities s.dice

/-- Result of `Game.promptUser`: the matrices displayed while servicing
help requests, the first non-help input together with the unconsumed input
stream, and the session state when the prompt resolves. -/
structure PromptResult where
  displays : List (List (List ProbEntry))
  answer : Option (RawInput × List RawInput)
  final : Session
deriving Repr, DecidableEq

/-- `Game.promptUser(prompt)` (lines 215-228): reads a line; on `"?"` it
shows the help table and re-issues the *same* prompt, otherwise it resolves
with the line.  The session is threaded explicitly to record that servicing
help leaves it unchanged. -/
def promptUserSt (s : Session) : List RawInput → PromptResult
  | [] => ⟨[], none, s⟩
  | RawInput.help :: rest =>
      let r := promptUserSt s rest
      ⟨showHelp s :: r.displays, r.answer, r.final⟩
  | i :: rest => ⟨[], some (i, rest), s⟩

/-- The answer component of `promptUser`: the first non-`"?"` input and the
rest of the stream. -/
def promptAnswer : List RawInput → Option (RawInput × List RawInput)
  | [] => none
  | RawInput.help :: rest => promptAnswer rest
  | i :: rest => some (i, rest)

/-- One commitment of the fairness protocol: the 256-bit key (hex string)
and the secret value drawn by `crypto.randomInt`. -/
structure Commitment where
  key : String
  secretValue : Nat
deriving Repr, DecidableEq

/-- The digest disclosed for a commitment:
`calculateHMAC(key, computerNumber)`. -/
def commitDigest (hmacPrim : String → String → String) (c : Commitment) : String :=
  calculateHMAC hmacPrim c.key c.secretValue

/-- Line 202 of the source: `(computerNumber + number) % max`. -/
def fairCombine (secretValue counterpartyValue modulus : Nat) : Nat :=
  (secretValue + counterpartyValue) % modulus

/-- Outcome of running `Game.fairRoll`: user exit, input/entropy stream
exhausted, or a completed roll recording the digest that was shown, the
commitment revealed, and the combined result. -/
inductive RollResult where
  | exited : RollResult
  | noInput : RollResult
  | rolled (digestShown : String) (revealed : Commitment) (result : Nat) : RollResult
deriving Repr, DecidableEq

/-- `Game.fairRoll(max, player)` (lines 181-206) over an explicit stream of
commitments (fresh entropy per attempt) and of raw inputs.  The commitment
is generated and its digest shown before the prompt; `"X"` exits; the `'?'`
branch of line 190 is unreachable because `promptUser` resolves `"?"`
itself, but is embedded as written (retry with a fresh commitment); a
non-numeric or out-of-range number retries with a fresh commitment
(discard-and-regenerate, spec §9); otherwise the result is
`(computerNumber + number) % max` and the commitment is revealed. -/
def fairRollRun (hmacPrim : String → String → String) (max : Nat) :
    List Commitment → List RawInput → RollResult
  | [], _ => RollResult.noInput
  | c :: cs, inputs =>
    match promptAnswer inputs with
    | none => RollResult.noInput
    | some (RawInput.quit, _) => RollResult.exited
    | some (RawInput.help, rest) => fairRollRun hmacPrim max cs rest
    | some (RawInput.text parsed, rest) =>
      match parsed with
      | none => fairRollRun hmacPrim max cs rest
      | some n =>
        if n < 0 ∨ (max : Int) ≤ n then fairRollRun hmacPrim max cs rest
        else RollResult.rolled (commitDigest hmacPrim c) c
               (fairCombine c.secretValue n.toNat max)

/-- Who makes the first move. -/
inductive FirstMover where
  | user : FirstMover
  | computer : FirstMover
deriving Repr, DecidableEq

/-- Outcome of running `Game.determineFirstMove`. -/
inductive FirstMoveStep where
  | exited : FirstMoveStep
  | noInput : FirstMoveStep
  | decided (fm : FirstMover) : FirstMoveStep
deriving Repr, DecidableEq

/-- Line 98-99 of the source: `(computerChoice + parseInt(userChoice)) % 2`
with NO validation of `userChoice`.  When `parseInt` yields `NaN` the JS
expression is `NaN`, `NaN === 0` is false, so the computer is assigned.
For a parsed integer the source decides by `result === 0`; the JS `%` is
the truncated remainder, but `r === 0` holds exactly when `2` divides the
sum, so the euclidean `%` makes the same decision. -/
def firstMoveOutcome (computerChoice : Nat) (parsed : Option Int) : FirstMover :=
  match parsed with
  | none => FirstMover.computer
  | some n => if ((computerChoice : Int) + n) % 2 = 0 then FirstMover.user
              else FirstMover.computer

/-- `Game.determineFirstMove()` (lines 82-101) over an explicit stream of
computer bits (fresh entropy per attempt) and of raw inputs.  The `'?'`
branch of line 92 is unreachable (`promptUser` resolves `"?"` itself) but
embedded as written (restart with fresh entropy).  Note there is no
invalid-input branch: any non-`"X"`, non-`"?"` line decides the first
mover. -/
def determineFirstMoveRun (choices : List Nat) (inputs : List RawInput) : FirstMoveStep :=
  match choices, inputs with
  | [], _ => FirstMoveStep.noInput
  | c :: cs, inputs =>
    match promptAnswer inputs with
    | none => FirstMoveStep.noInput
    | some (RawInput.quit, _) => FirstMoveStep.exited
    | some (RawInput.help, rest) => determineFirstMoveRun cs rest
    | some (RawInput.text parsed, _) => FirstMoveStep.decided (firstMoveOutcome c parsed)

/-- The candidate pool after one side has taken the die at `chosenIdx`,
kept with original positions: `this.dice.filter((_, i) => i !== index)`
filters by original index. -/
def availableEntries (dice : List Dice) (chosenIdx : Nat) : List (Nat × Dice) :=
  dice.enum.filter fun p => decide (p.1 ≠ chosenIdx)

/-- The candidate pool as the source builds it (dice only):
`this.dice.filter((_, i) => i !== index)`. -/
def availableAfter (dice : List Dice) (chosenIdx : Nat) : List Dice :=
  (availableEntries dice chosenIdx).map Prod.snd

/-- Dice assignment when the user moves first (lines 111-137): the user
picks `userIdx` from the full pool (validated against `this.dice.length`),
the computer draws position `cPick` from the pool with that die removed. -/
def selectUserFirst (dice : List Dice) (userIdx cPick : Nat) : Option (Dice × Dice) :=
  match dice[userIdx]?, (availableAfter dice userIdx)[cPick]? with
  | some ud, some cd => some (ud, cd)
  | _, _ => none

/-- Dice assignment when the computer moves first (lines 140-166): the
computer draws `compIdx` from the full pool, the user picks position
`userPick` from the pool with that die removed (validated against the
reduced pool's length).  Returns `(userDice, computerDice)`. -/
def selectComputerFirst (dice : List Dice) (compIdx userPick : Nat) : Option (Dice × Dice) :=
  match dice[compIdx]?, (availableAfter dice compIdx)[userPick]? with
  | some cd, some ud => some (ud, cd)
  | _, _ => none

/-! ## Helper lemmas -/

theorem foldl_add_eq (f : Int → Nat) : ∀ (l : List Int) (n : Nat),
    l.foldl (fun acc a => acc + f a) n = n + (l.map f).sum
  | [], n => by simp
  | a :: l, n => by
    simp only [List.foldl_cons, List.map_cons, List.sum_cons]
    rw [foldl_add_eq f l (n + f a)]
    omega

theorem winsCount_eq_sum (di dj : Dice) :
    winsCount di dj = (di.values.map fun a => dj.values.countP fun b => decide (a > b)).sum := by
  unfold winsCount
  rw [foldl_add_eq]
  omega

theorem product_cons_eq (a : Int) (l₁ l₂ : List Int) :
    (a :: l₁).product l₂ = l₂.map (Prod.mk a) ++ l₁.product l₂ :=
  List.product_cons a l₁ l₂

theorem countP_product (P : Int → Int → Bool) : ∀ (l₁ l₂ : List Int),
    (l₁.product l₂).countP (fun p => P p.1 p.2) = (l₁.map fun a => l₂.countP (P a)).sum
  | [], l₂ => by simp [List.product]
  | a :: l₁, l₂ => by
    rw [product_cons_eq, List.countP_append, List.countP_map, countP_product P l₁ l₂]
    have hc : ((fun p => P p.1 p.2) ∘ Prod.mk a) = P a := funext fun b => rfl
    rw [hc]
    simp

theorem winsCount_eq_specPairCount (di dj : Dice) : winsCount di dj = specPairCount di dj := by
  rw [winsCount_eq_sum]
  unfold specPairCount
  rw [← List.countP_eq_length_filter,
    countP_product (fun x y => decide (x > y)) di.values dj.values]

theorem sum_map_add (f g : Int → Nat) : ∀ (l : List Int),
    (l.map fun x => f x + g x).sum = (l.map f).sum + (l.map g).sum
  | [] => by simp
  | a :: l => by
    simp only [List.map_cons, List.sum_cons, sum_map_add f g l]
    omega

theorem countP_eq_sum_ite (p : Int → Bool) : ∀ (l : List Int),
    l.countP p = (l.map fun b => if p b then 1 else 0).sum
  | [] => by simp
  | a :: l => by
    rw [List.countP_cons, List.map_cons, List.sum_cons, countP_eq_sum_ite p l]
    omega

theorem sum_exchange (R : Int → Int → Bool) : ∀ (l₁ l₂ : List Int),
    (l₁.map fun a => l₂.countP (R a)).sum = (l₂.map fun b => l₁.countP fun a => R a b).sum
  | [], l₂ => by
    simp only [List.map_nil, List.sum_nil, List.countP_nil]
    induction l₂ with
    | nil => simp
    | cons b l ih => simpa using ih
  | a :: l₁, l₂ => by
    simp only [List.map_cons, List.sum_cons]
    rw [sum_exchange R l₁ l₂]
    have hc : ∀ b, (a :: l₁).countP (fun x => R x b) =
        l₁.countP (fun x => R x b) + (if R a b then 1 else 0) := by
      intro b; rw [List.countP_cons]
    calc l₂.countP (R a) + (l₂.map fun b => l₁.countP fun x => R x b).sum
        = (l₂.map fun b => if R a b then 1 else 0).sum
            + (l₂.map fun b => l₁.countP fun x => R x b).sum := by
          rw [← countP_eq_sum_ite]
      _ = (l₂.map fun b => l₁.countP (fun x => R x b) + if R a b then 1 else 0).sum := by
          rw [sum_map_add (fun b => l₁.countP fun x => R x b) (fun b => if R a b then 1 else 0)]
          omega
      _ = (l₂.map fun b => (a :: l₁).countP fun x => R x b).sum := by
          congr 1
          exact (List.map_congr_left fun b _ => (hc b).symm)

theorem cross_countP (a : Int) : ∀ (l : List Int), (∀ b ∈ l, b ≠ a) →
    (l.countP fun b => decide (a > b)) + (l.countP fun b => decide (b > a)) = l.length
  | [], _ => by simp
  | b :: l, h => by
    have hne : b ≠ a := h b (List.mem_cons_self b l)
    have ih := cross_countP a l (fun x hx => h x (List.mem_cons_of_mem b hx))
    rcases lt_trichotomy a b with hlt | heq | hgt
    · rw [List.countP_cons_of_neg (fun x => decide (a > x)) l (by simp; omega),
        List.countP_cons_of_pos (fun x => decide (x > a)) l (decide_eq_true hlt),
        List.length_cons]
      omega
    · exact absurd heq.symm hne
    · rw [List.countP_cons_of_pos (fun x => decide (a > x)) l (decide_eq_true hgt),
        List.countP_cons_of_neg (fun x => decide (x > a)) l (by simp; omega),
        List.length_cons]
      omega

theorem sum_map_const_length (c : Nat) : ∀ (l : List Int), (l.map fun _ => c).sum = l.length * c
  | [] => by simp
  | a :: l => by
    simp only [List.map_cons, List.sum_cons, List.length_cons, sum_map_const_length c l]
    ring

theorem winsCount_add_winsCount (di dj : Dice)
    (h : ∀ a ∈ di.values, ∀ b ∈ dj.values, a ≠ b) :
    winsCount di dj + winsCount dj di = di.length * dj.length := by
  rw [winsCount_eq_sum, winsCount_eq_sum]
  rw [show (dj.values.map fun a => di.values.countP fun b => decide (a > b)).sum
      = (di.values.map fun a => dj.values.countP fun b => decide (b > a)).sum from
    (sum_exchange (fun x y => decide (y > x)) di.values dj.values).symm]
  rw [← sum_map_add]
  have hpt : ∀ a ∈ di.values,
      ((dj.values.countP fun b => decide (a > b)) + (dj.values.countP fun b => decide (b > a)))
        = dj.values.length := by
    intro a ha
    exact cross_countP a dj.values (fun b hb => fun hba => h a ha b hb hba.symm)
  rw [List.map_congr_left hpt, sum_map_const_length]
  rfl

theorem calculateProbabilities_entry (dice : List Dice) (i j : Nat)
    (hi : i < dice.length) (hj : j < dice.length) :
    matrixEntry (calculateProbabilities dice) i j =
      some (if i = j then ProbEntry.dash
        else ProbEntry.pct (toFixed2
          ((winsCount dice[i] dice[j] : ℚ) /
            ((dice[i].length : ℚ) * (dice[j].length : ℚ)) * 100))) := by
  unfold matrixEntry calculateProbabilities
  rw [List.getElem?_map, List.getElem?_enum, List.getElem?_eq_getElem hi]
  simp only [Option.map_some', Option.some_bind]
  rw [List.getElem?_map, List.getElem?_enum, List.getElem?_eq_getElem hj]
  simp only [Option.map_some']

theorem toFixed2_div (w T : Nat) (hT : T ≠ 0) :
    toFixed2 ((w : ℚ) / (T : ℚ) * 100) = ((20000 * w + T) / (2 * T) : ℕ) := by
  unfold toFixed2
  have hT0 : (T : ℚ) ≠ 0 := Nat.cast_ne_zero.mpr hT
  have h1 : 100 * ((w : ℚ) / (T : ℚ) * 100) + 1 / 2 =
      ((20000 * w + T : ℕ) : ℚ) / ((2 * T : ℕ) : ℚ) := by
    push_cast
    field_simp
    ring
  rw [h1, Rat.floor_natCast_div_natCast]
  exact (Int.ofNat_div _ _).symm

theorem matrixEntry_off (dice : List Dice) (i j : Nat)
    (hi : i < dice.length) (hj : j < dice.length) (hij : i ≠ j)
    (h1 : dice[i].length ≠ 0) (h2 : dice[j].length ≠ 0) :
    matrixEntry (calculateProbabilities dice) i j =
      some (ProbEntry.pct
        (((20000 * winsCount dice[i] dice[j] + dice[i].length * dice[j].length) /
          (2 * (dice[i].length * dice[j].length)) : ℕ))) := by
  rw [calculateProbabilities_entry dice i j hi hj, if_neg hij]
  have hc : ((dice[i].length : ℚ) * (dice[j].length : ℚ)) =
      ((dice[i].length * dice[j].length : ℕ) : ℚ) := by push_cast; ring
  rw [hc, toFixed2_div _ _ (Nat.mul_ne_zero h1 h2)]

theorem floor_pair_bound (y₁ y₂ : ℚ) (h : y₁ + y₂ = 10001) :
    10000 ≤ Int.floor y₁ + Int.floor y₂ ∧ Int.floor y₁ + Int.floor y₂ ≤ 10001 := by
  have a1 : (Int.floor y₁ : ℚ) ≤ y₁ := Int.floor_le y₁
  have a2 : (Int.floor y₂ : ℚ) ≤ y₂ := Int.floor_le y₂
  have b1 : y₁ < Int.floor y₁ + 1 := Int.lt_floor_add_one y₁
  have b2 : y₂ < Int.floor y₂ + 1 := Int.lt_floor_add_one y₂
  constructor
  · have hq : (9999 : ℚ) < ((Int.floor y₁ + Int.floor y₂ : ℤ) : ℚ) := by push_cast; linarith
    have hz : (9999 : ℤ) < Int.floor y₁ + Int.floor y₂ := by exact_mod_cast hq
    omega
  · have hq : ((Int.floor y₁ + Int.floor y₂ : ℤ) : ℚ) ≤ (10001 : ℚ) := by push_cast; linarith
    exact_mod_cast hq

theorem toFixed2_complement (w₁ w₂ T : Nat) (hT : T ≠ 0) (hsum : w₁ + w₂ = T) :
    10000 ≤ toFixed2 ((w₁ : ℚ) / (T : ℚ) * 100) + toFixed2 ((w₂ : ℚ) / (T : ℚ) * 100) ∧
    toFixed2 ((w₁ : ℚ) / (T : ℚ) * 100) + toFixed2 ((w₂ : ℚ) / (T : ℚ) * 100) ≤ 10001 := by
  have hT0 : (T : ℚ) ≠ 0 := Nat.cast_ne_zero.mpr hT
  have hw : (w₁ : ℚ) + (w₂ : ℚ) = (T : ℚ) := by exact_mod_cast congrArg (Nat.cast : ℕ → ℚ) hsum
  have hxsum : (100 * ((w₁ : ℚ) / (T : ℚ) * 100) + 1 / 2) +
      (100 * ((w₂ : ℚ) / (T : ℚ) * 100) + 1 / 2) = 10001 := by
    field_simp
    linarith
  exact floor_pair_bound _ _ hxsum

theorem fairRollRun_cons (h : String → String → String) (max : Nat)
    (c₀ : Commitment) (cs : List Commitment) (inputs : List RawInput) :
    fairRollRun h max (c₀ :: cs) inputs =
      match promptAnswer inputs with
      | none => RollResult.noInput
      | some (RawInput.quit, _) => RollResult.exited
      | some (RawInput.help, rest) => fairRollRun h max cs rest
      | some (RawInput.text none, rest) => fairRollRun h max cs rest
      | some (RawInput.text (some n), rest) =>
        if n < 0 ∨ (max : Int) ≤ n then fairRollRun h max cs rest
        else RollResult.rolled (commitDigest h c₀) c₀
               (fairCombine c₀.secretValue n.toNat max) := by
  rw [fairRollRun]
  rcases promptAnswer inputs with _ | ⟨i, rest⟩
  · rfl
  · cases i with
    | quit => rfl
    | help => rfl
    | text parsed => cases parsed <;> rfl

theorem fairRollRun_help_eq (h : String → String → String) (max : Nat)
    (comms : List Commitment) (inputs : List RawInput) :
    fairRollRun h max comms (RawInput.help :: inputs) = fairRollRun h max comms inputs := by
  cases comms with
  | nil => rfl
  | cons c₀ cs =>
    rw [fairRollRun_cons, fairRollRun_cons]
    have hpa : promptAnswer (RawInput.help :: inputs) = promptAnswer inputs := rfl
    rw [hpa]

theorem fairRollRun_rolled (h : String → String → String) (max : Nat) :
    ∀ (comms : List Commitment) (inputs : List RawInput)
      (dg : String) (c : Commitment) (r : Nat),
    fairRollRun h max comms inputs = RollResult.rolled dg c r →
    dg = commitDigest h c ∧ ∃ n : Nat, r = fairCombine c.secretValue n max
  | [], inputs, dg, c, r => by
    intro heq
    exact absurd heq (by rw [fairRollRun]; simp)
  | c₀ :: cs, inputs, dg, c, r => by
    intro heq
    rw [fairRollRun_cons] at heq
    rcases hpa : promptAnswer inputs with _ | ⟨i, rest⟩
    · rw [hpa] at heq
      exact absurd heq (by simp)
    · rw [hpa] at heq
      cases i with
      | quit => exact absurd heq (by simp)
      | help => exact fairRollRun_rolled h max cs rest dg c r heq
      | text parsed =>
        cases parsed with
        | none => exact fairRollRun_rolled h max cs rest dg c r heq
        | some n =>
          have heq2 : (if n < 0 ∨ (max : Int) ≤ n then fairRollRun h max cs rest
              else RollResult.rolled (commitDigest h c₀) c₀
                (fairCombine c₀.secretValue n.toNat max)) = RollResult.rolled dg c r := heq
          by_cases hc : n < 0 ∨ (max : Int) ≤ n
          · rw [if_pos hc] at heq2
            exact fairRollRun_rolled h max cs rest dg c r heq2
          · rw [if_neg hc] at heq2
            injection heq2 with h1 h2 h3
            subst h1; subst h2; subst h3
            exact ⟨rfl, n.toNat, rfl⟩

theorem promptUserSt_final (s : Session) : ∀ inputs, (promptUserSt s inputs).final = s
  | [] => rfl
  | RawInput.quit :: _ => rfl
  | RawInput.text _ :: _ => rfl
  | RawInput.help :: rest => by
    have ih := promptUserSt_final s rest
    simp only [promptUserSt]
    exact ih

theorem promptUserSt_displays (s : Session) :
    ∀ inputs, ∀ m ∈ (promptUserSt s inputs).displays, m = showHelp s
  | [] => by intro m hm; simp [promptUserSt] at hm
  | RawInput.quit :: _ => by intro m hm; simp [promptUserSt] at hm
  | RawInput.text _ :: _ => by intro m hm; simp [promptUserSt] at hm
  | RawInput.help :: rest => by
    intro m hm
    simp only [promptUserSt, List.mem_cons] at hm
    rcases hm with hm | hm
    · exact hm
    · exact promptUserSt_displays s rest m hm

theorem promptUserSt_answer (s : Session) :
    ∀ inputs, (promptUserSt s inputs).answer = promptAnswer inputs
  | [] => rfl
  | RawInput.quit :: _ => rfl
  | RawInput.text _ :: _ => rfl
  | RawInput.help :: rest => by
    have ih := promptUserSt_answer s rest
    simp only [promptUserSt, promptAnswer]
    exact ih

theorem enumFrom_fst_le (l : List Dice) (n : Nat) (p : Nat × Dice)
    (hp : p ∈ l.enumFrom n) : n ≤ p.1 := by
  obtain ⟨i, x⟩ := p
  exact (List.mk_mem_enumFrom_iff_le_and_getElem?_sub.mp hp).1

theorem enumFrom_filter_ne : ∀ (l : List Dice) (n i : Nat),
    ((l.enumFrom n).filter fun p => decide (p.1 ≠ n + i)).map Prod.snd = l.eraseIdx i
  | [], n, i => by simp
  | a :: t, n, i => by
    rw [show (a :: t).enumFrom n = (n, a) :: t.enumFrom (n + 1) from rfl, List.filter_cons]
    cases i with
    | zero =>
      have hfalse : (decide ((n, a).1 ≠ n + 0)) = false := by simp
      rw [hfalse]
      simp only [Bool.false_eq_true, if_false]
      have hall : (t.enumFrom (n + 1)).filter (fun p => decide (p.1 ≠ n + 0)) =
          t.enumFrom (n + 1) := by
        rw [List.filter_eq_self]
        intro p hp
        have := enumFrom_fst_le t (n + 1) p hp
        simp
        omega
      rw [hall, List.enumFrom_map_snd]
      rfl
    | succ i' =>
      have htrue : (decide ((n, a).1 ≠ n + (i' + 1))) = true := by simp
      rw [htrue]
      simp only [if_true]
      rw [List.map_cons]
      have hstep : (fun p : Nat × Dice => decide (p.1 ≠ n + (i' + 1))) =
          (fun p : Nat × Dice => decide (p.1 ≠ (n + 1) + i')) := by
        funext p
        have : n + (i' + 1) = (n + 1) + i' := by omega
        rw [this]
      rw [hstep, enumFrom_filter_ne t (n + 1) i']
      rfl

theorem availableAfter_eq_eraseIdx (dice : List Dice) (c : Nat) :
    availableAfter dice c = dice.eraseIdx c := by
  unfold availableAfter availableEntries
  have h : dice.enum = dice.enumFrom 0 := rfl
  rw [h]
  have h2 : (fun p : Nat × Dice => decide (p.1 ≠ c)) =
      (fun p : Nat × Dice => decide (p.1 ≠ 0 + c)) := by
    funext p
    rw [Nat.zero_add]
  rw [h2, enumFrom_filter_ne dice 0 c]

theorem availableEntries_spec (dice : List Dice) (c : Nat) (p : Nat × Dice)
    (hp : p ∈ availableEntries dice c) : p.1 ≠ c ∧ dice[p.1]? = some p.2 := by
  unfold availableEntries at hp
  rw [List.mem_filter] at hp
  obtain ⟨hmem, hdec⟩ := hp
  refine ⟨by simpa using hdec, ?_⟩
  obtain ⟨i, x⟩ := p
  exact List.mk_mem_enum_iff_getElem?.mp hmem

theorem availableAfter_getElem (dice : List Dice) (c k : Nat) (d : Dice)
    (hk : (availableAfter dice c)[k]? = some d) :
    ∃ j, j ≠ c ∧ dice[j]? = some d := by
  unfold availableAfter at hk
  rw [List.getElem?_map] at hk
  rcases hp : (availableEntries dice c)[k]? with _ | p
  · rw [hp] at hk; exact absurd hk (by simp)
  · rw [hp] at hk
    have hd : p.2 = d := by simpa using hk
    have hmem : p ∈ availableEntries dice c := List.getElem?_mem hp
    obtain ⟨h1, h2⟩ := availableEntries_spec dice c p hmem
    exact ⟨p.1, h1, by rw [h2, hd]⟩

/-! ## Concrete dice from the specification's example -/

/-- Die `A = [2,2,4,4,9,9]` of the spec's non-transitivity example. -/
def diceA : Dice := ⟨[2, 2, 4, 4, 9, 9]⟩

/-- Die `B = [1,1,6,6,8,8]` of the spec's non-transitivity example. -/
def diceB : Dice := ⟨[1, 1, 6, 6, 8, 8]⟩

/-- Die `C = [3,3,5,5,7,7]` of the spec's non-transitivity example. -/
def diceC : Dice := ⟨[3, 3, 5, 5, 7, 7]⟩

/-- The combined value is a residue: `fairCombine` lands in `[0, m)`. -/
theorem fairCombine_lt (s n m : Nat) (hm : 0 < m) : fairCombine s n m < m :=
  Nat.mod_lt _ hm

/-! ## Claims -/

/-- C1: for every modulus `m ≥ 1`, secret `s ∈ [0, m)` and valid user
number `n ∈ [0, m)`, `fairRoll` reveals the commitment it displayed and
returns `(s + n) % m`; in particular `(4 + 2) % 6 = 0`, and the face used
for comparison is the one at index 0 of the assigned die. -/
theorem c1_fair_roll_combines_mod
    (hmacPrim : String → String → String) (key : String)
    (m s n : Nat) (cs : List Commitment) (rest : List RawInput)
    (hm : 1 ≤ m) (hs : s < m) (hn : n < m) :
    fairRollRun hmacPrim m (⟨key, s⟩ :: cs) (RawInput.text (some (n : Int)) :: rest) =
      RollResult.rolled (calculateHMAC hmacPrim key s) ⟨key, s⟩ ((s + n) % m) ∧
    fairCombine 4 2 6 = 0 ∧
    (∀ (d : Dice) (v : Int) (tl : List Int), d.values = v :: tl → d.roll 0 = some v) := by
  refine ⟨?_, rfl, ?_⟩
  · have hcond : ¬ ((n : Int) < 0 ∨ (m : Int) ≤ (n : Int)) := by
      push_cast
      omega
    have hstep : fairRollRun hmacPrim m (⟨key, s⟩ :: cs)
        (RawInput.text (some (n : Int)) :: rest) =
        (if (n : Int) < 0 ∨ (m : Int) ≤ (n : Int) then fairRollRun hmacPrim m cs rest
         else RollResult.rolled (commitDigest hmacPrim ⟨key, s⟩) ⟨key, s⟩
           (fairCombine (Commitment.mk key s).secretValue ((n : Int)).toNat m)) := by
      rw [fairRollRun_cons]
      rfl
    rw [hstep, if_neg hcond]
    have htn : ((n : Int)).toNat = n := Int.toNat_natCast n
    rw [htn]
    rfl
  · intro d v tl hdv
    unfold Dice.roll
    rw [hdv]
    simp

/-- Witness for C1 at `m = 6`, `s = 4`, `n = 2`. -/
theorem c1_witness :
    1 ≤ 6 ∧ (4 : Nat) < 6 ∧ (2 : Nat) < 6 ∧
    (fairRollRun (fun k msg => k ++ msg) 6 [⟨"k", 4⟩]
        [RawInput.text (some ((2 : Nat) : Int))] =
      RollResult.rolled (calculateHMAC (fun k msg => k ++ msg) "k" 4) ⟨"k", 4⟩ ((4 + 2) % 6) ∧
     fairCombine 4 2 6 = 0 ∧
     (∀ (d : Dice) (v : Int) (tl : List Int), d.values = v :: tl → d.roll 0 = some v)) :=
  ⟨by decide, by decide, by decide,
    c1_fair_roll_combines_mod (fun k msg => k ++ msg) "k" 6 4 2 [] []
      (by decide) (by decide) (by decide)⟩

/-- C2: for fixed counterparty value `n` and modulus `m ≥ 1`, the map
`s ↦ (s + n) % m` is a bijection of `[0, m)` onto itself. -/
theorem c2_combine_bijective (m n : Nat) (hm : 0 < m) (hn : n < m) :
    Function.Bijective
      (fun s : Fin m => (⟨fairCombine s.val n m, fairCombine_lt s.val n m hm⟩ : Fin m)) := by
  have hinj : Function.Injective
      (fun s : Fin m => (⟨fairCombine s.val n m, fairCombine_lt s.val n m hm⟩ : Fin m)) := by
    intro a b hab
    have h1 : fairCombine a.val n m = fairCombine b.val n m := congrArg Fin.val hab
    have h2 : (a.val + n) % m = (b.val + n) % m := h1
    have h3 : a.val % m = b.val % m := Nat.ModEq.add_right_cancel' n h2
    have h4 : a.val = b.val := by
      rw [Nat.mod_eq_of_lt a.isLt, Nat.mod_eq_of_lt b.isLt] at h3
      exact h3
    exact Fin.ext h4
  exact Finite.injective_iff_bijective.mp hinj

/-- Witness for C2 at `m = 6`, `n = 2`. -/
theorem c2_witness :
    0 < 6 ∧ 2 < 6 ∧
    Function.Bijective
      (fun s : Fin 6 =>
        (⟨fairCombine s.val 2 6, fairCombine_lt s.val 2 6 (by decide)⟩ : Fin 6)) :=
  ⟨by decide, by decide, c2_combine_bijective 6 2 (by decide) (by decide)⟩

/-- C3 (code bug): the first-move guess prompt does not validate input.
With computer bit `0`, a non-numeric guess (`parseInt` gives `NaN`)
produces `(0 + NaN) % 2 = NaN`, `NaN === 0` is false, and the computer is
silently assigned first mover instead of the decision being re-prompted;
an out-of-range guess such as `5` likewise proceeds straight to an
assignment. -/
theorem c3_first_move_no_validation :
    determineFirstMoveRun [0] [RawInput.text none] =
      FirstMoveStep.decided FirstMover.computer ∧
    determineFirstMoveRun [0] [RawInput.text (some 5)] =
      FirstMoveStep.decided FirstMover.computer := by
  decide

/-- C4: entry `[i][j]` of the computed matrix is the `'-'` marker when
`i = j`, and otherwise the count of strictly-winning pairs divided by the
product of the face counts, as a percentage rounded to two decimals. -/
theorem c4_matrix_entries (dice : List Dice) (i j : Nat)
    (hi : i < dice.length) (hj : j < dice.length) :
    (i = j → matrixEntry (calculateProbabilities dice) i j = some ProbEntry.dash) ∧
    (i ≠ j → matrixEntry (calculateProbabilities dice) i j =
      some (ProbEntry.pct (toFixed2
        ((specPairCount dice[i] dice[j] : ℚ) /
          ((dice[i].length : ℚ) * (dice[j].length : ℚ)) * 100)))) := by
  constructor
  · intro hij
    rw [calculateProbabilities_entry dice i j hi hj, if_pos hij]
  · intro hij
    rw [calculateProbabilities_entry dice i j hi hj, if_neg hij,
      winsCount_eq_specPairCount]

/-- Witness for C4 on the dice `A`, `B` at `(i, j) = (0, 1)`. -/
theorem c4_witness :
    (0 : Nat) < ([diceA, diceB] : List Dice).length ∧
    (1 : Nat) < ([diceA, diceB] : List Dice).length ∧
    matrixEntry (calculateProbabilities [diceA, diceB]) 0 1 =
      some (ProbEntry.pct (toFixed2
        ((specPairCount diceA diceB : ℚ) /
          ((diceA.length : ℚ) * (diceB.length : ℚ)) * 100))) :=
  ⟨by decide, by decide,
    (c4_matrix_entries [diceA, diceB] 0 1 (by decide) (by decide)).2 (by decide)⟩

/-- C5: when no face value of one die equals any face value of a distinct
die, the two off-diagonal entries sum to 100% up to one hundredth of a
percent (the two roundings); and for every sequence of dice whatsoever,
every diagonal entry is the `'-'` marker. -/
theorem c5_complement_and_diagonal (dice : List Dice) :
    (∀ i j, (hi : i < dice.length) → (hj : j < dice.length) → i ≠ j →
      (∀ d ∈ dice, d.values ≠ []) →
      (∀ k, (hk : k < dice.length) → ∀ l, (hl : l < dice.length) → k ≠ l →
        ∀ a ∈ dice[k].values, ∀ b ∈ dice[l].values, a ≠ b) →
      ∃ e₁ e₂ : Int,
        matrixEntry (calculateProbabilities dice) i j = some (ProbEntry.pct e₁) ∧
        matrixEntry (calculateProbabilities dice) j i = some (ProbEntry.pct e₂) ∧
        10000 ≤ e₁ + e₂ ∧ e₁ + e₂ ≤ 10001) ∧
    (∀ k, (hk : k < dice.length) →
      matrixEntry (calculateProbabilities dice) k k = some ProbEntry.dash) := by
  constructor
  · intro i j hi hj hij hne hnt
    have hTi : dice[i].length ≠ 0 := by
      have hv := hne dice[i] (List.getElem_mem hi)
      unfold Dice.length
      intro hlen
      exact hv (List.length_eq_zero.mp hlen)
    have hTj : dice[j].length ≠ 0 := by
      have hv := hne dice[j] (List.getElem_mem hj)
      unfold Dice.length
      intro hlen
      exact hv (List.length_eq_zero.mp hlen)
    have hsum : winsCount dice[i] dice[j] + winsCount dice[j] dice[i] =
        dice[i].length * dice[j].length :=
      winsCount_add_winsCount dice[i] dice[j] (hnt i hi j hj hij)
    have hT : dice[i].length * dice[j].length ≠ 0 := Nat.mul_ne_zero hTi hTj
    have hcast₁ : ((dice[i].length : ℚ) * (dice[j].length : ℚ)) =
        ((dice[i].length * dice[j].length : ℕ) : ℚ) := by push_cast; ring
    have hcast₂ : ((dice[j].length : ℚ) * (dice[i].length : ℚ)) =
        ((dice[i].length * dice[j].length : ℕ) : ℚ) := by push_cast; ring
    have he₁ : matrixEntry (calculateProbabilities dice) i j =
        some (ProbEntry.pct (toFixed2
          ((winsCount dice[i] dice[j] : ℚ) /
            ((dice[i].length * dice[j].length : ℕ) : ℚ) * 100))) := by
      rw [calculateProbabilities_entry dice i j hi hj, if_neg hij, hcast₁]
    have he₂ : matrixEntry (calculateProbabilities dice) j i =
        some (ProbEntry.pct (toFixed2
          ((winsCount dice[j] dice[i] : ℚ) /
            ((dice[i].length * dice[j].length : ℕ) : ℚ) * 100))) := by
      rw [calculateProbabilities_entry dice j i hj hi, if_neg (Ne.symm hij), hcast₂]
    obtain ⟨hlow, hhigh⟩ := toFixed2_complement (winsCount dice[i] dice[j])
      (winsCount dice[j] dice[i]) (dice[i].length * dice[j].length) hT hsum
    exact ⟨_, _, he₁, he₂, hlow, hhigh⟩
  · intro k hk
    rw [calculateProbabilities_entry dice k k hk hk, if_pos rfl]

/-- Witness for C5 on the spec's dice `A`, `B`, `C`: the complement at
`(i, j) = (0, 1)` with every hypothesis discharged, and the diagonal entry
at `k = 0`. -/
theorem c5_witness :
    (∃ e₁ e₂ : Int,
      matrixEntry (calculateProbabilities [diceA, diceB, diceC]) 0 1 =
        some (ProbEntry.pct e₁) ∧
      matrixEntry (calculateProbabilities [diceA, diceB, diceC]) 1 0 =
        some (ProbEntry.pct e₂) ∧
      10000 ≤ e₁ + e₂ ∧ e₁ + e₂ ≤ 10001) ∧
    matrixEntry (calculateProbabilities [diceA, diceB, diceC]) 0 0 =
      some ProbEntry.dash :=
  ⟨(c5_complement_and_diagonal [diceA, diceB, diceC]).1 0 1 (by decide) (by decide)
      (by decide) (by decide) (by decide),
    (c5_complement_and_diagonal [diceA, diceB, diceC]).2 0 (by decide)⟩

/-- C6: on `A = [2,2,4,4,9,9]`, `B = [1,1,6,6,8,8]`, `C = [3,3,5,5,7,7]`
the matrix gives `A` over `B`, `B` over `C` and `C` over `A` each the
entry 55.56% (the rounding of `5/9` as a percentage), strictly above
50%. -/
theorem c6_nontransitive_cycle :
    matrixEntry (calculateProbabilities [diceA, diceB, diceC]) 0 1 =
      some (ProbEntry.pct 5556) ∧
    matrixEntry (calculateProbabilities [diceA, diceB, diceC]) 1 2 =
      some (ProbEntry.pct 5556) ∧
    matrixEntry (calculateProbabilities [diceA, diceB, diceC]) 2 0 =
      some (ProbEntry.pct 5556) ∧
    toFixed2 ((5 : ℚ) / 9 * 100) = 5556 ∧ (5000 : Int) < 5556 := by
  refine ⟨?_, ?_, ?_, ?_, by decide⟩
  · exact (matrixEntry_off [diceA, diceB, diceC] 0 1 (by decide) (by decide)
      (by decide) (by decide) (by decide)).trans (by decide)
  · exact (matrixEntry_off [diceA, diceB, diceC] 1 2 (by decide) (by decide)
      (by decide) (by decide) (by decide)).trans (by decide)
  · exact (matrixEntry_off [diceA, diceB, diceC] 2 0 (by decide) (by decide)
      (by decide) (by decide) (by decide)).trans (by decide)
  · have h59 : ((5 : ℚ) / 9 * 100) = ((5 : ℕ) : ℚ) / ((9 : ℕ) : ℚ) * 100 := by norm_num
    rw [h59, toFixed2_div 5 9 (by decide)]
    decide

/-- C7: servicing a help request displays the matrix over the session's
full die set and re-prompts the same pending decision; the session state,
the answer eventually taken, and the pending `fairRoll` commitment (hence
the digest shown and the secret revealed) are unchanged, and the digest a
completed roll reveals always verifies against the revealed values. -/
theorem c7_help_preserves_state (s : Session) (inputs : List RawInput)
    (hmacPrim : String → String → String) (max : Nat) (comms : List Commitment) :
    (promptUserSt s inputs).final = s ∧
    (∀ m ∈ (promptUserSt s inputs).displays, m = calculateProbabilities s.dice) ∧
    (promptUserSt s (RawInput.help :: inputs)).answer = (promptUserSt s inputs).answer ∧
    fairRollRun hmacPrim max comms (RawInput.help :: inputs) =
      fairRollRun hmacPrim max comms inputs ∧
    (∀ dg c r, fairRollRun hmacPrim max comms inputs = RollResult.rolled dg c r →
      dg = commitDigest hmacPrim c ∧ verify hmacPrim c.key c.secretValue dg = true) := by
  refine ⟨promptUserSt_final s inputs,
    fun m hm => promptUserSt_displays s inputs m hm, ?_,
    fairRollRun_help_eq hmacPrim max comms inputs, ?_⟩
  · rw [promptUserSt_answer, promptUserSt_answer]
    rfl
  · intro dg c r heq
    obtain ⟨h1, _⟩ := fairRollRun_rolled hmacPrim max comms inputs dg c r heq
    refine ⟨h1, ?_⟩
    rw [h1]
    unfold verify commitDigest
    exact beq_self_eq_true _

/-- Witness for C7 on a one-die session with a single valid input. -/
theorem c7_witness :
    (promptUserSt ⟨[diceA]⟩ [RawInput.text (some 0)]).final = ⟨[diceA]⟩ ∧
    (∀ m ∈ (promptUserSt ⟨[diceA]⟩ [RawInput.text (some 0)]).displays,
      m = calculateProbabilities (Session.mk [diceA]).dice) ∧
    (promptUserSt ⟨[diceA]⟩ (RawInput.help :: [RawInput.text (some 0)])).answer =
      (promptUserSt ⟨[diceA]⟩ [RawInput.text (some 0)]).answer ∧
    fairRollRun (fun k msg => k ++ msg) 1 [⟨"k", 0⟩]
        (RawInput.help :: [RawInput.text (some 0)]) =
      fairRollRun (fun k msg => k ++ msg) 1 [⟨"k", 0⟩] [RawInput.text (some 0)] ∧
    (∀ dg c r, fairRollRun (fun k msg => k ++ msg) 1 [⟨"k", 0⟩]
        [RawInput.text (some 0)] = RollResult.rolled dg c r →
      dg = commitDigest (fun k msg => k ++ msg) c ∧
      verify (fun k msg => k ++ msg) c.key c.secretValue dg = true) :=
  c7_help_preserves_state ⟨[diceA]⟩ [RawInput.text (some 0)]
    (fun k msg => k ++ msg) 1 [⟨"k", 0⟩]

/-- C8: once a die is assigned, it is absent from the pool offered to the
other side (the offered pool is the original list with exactly that
position removed), so the two assigned dice occupy distinct positions of
the original pool. -/
theorem c8_dice_exclusivity (dice : List Dice) (chosenIdx cPick uPick : Nat) :
    availableAfter dice chosenIdx = dice.eraseIdx chosenIdx ∧
    (∀ p ∈ availableEntries dice chosenIdx, p.1 ≠ chosenIdx) ∧
    (∀ ud cd, selectUserFirst dice chosenIdx cPick = some (ud, cd) →
      dice[chosenIdx]? = some ud ∧ ∃ j, j ≠ chosenIdx ∧ dice[j]? = some cd) ∧
    (∀ ud cd, selectComputerFirst dice chosenIdx uPick = some (ud, cd) →
      dice[chosenIdx]? = some cd ∧ ∃ j, j ≠ chosenIdx ∧ dice[j]? = some ud) := by
  refine ⟨availableAfter_eq_eraseIdx dice chosenIdx,
    fun p hp => (availableEntries_spec dice chosenIdx p hp).1, ?_, ?_⟩
  · intro ud cd heq
    unfold selectUserFirst at heq
    rcases h1 : dice[chosenIdx]? with _ | ud0 <;> rw [h1] at heq <;>
      rcases h2 : (availableAfter dice chosenIdx)[cPick]? with _ | cd0 <;>
        rw [h2] at heq <;> simp at heq
    obtain ⟨rfl, rfl⟩ := heq
    exact ⟨rfl, availableAfter_getElem dice chosenIdx cPick cd0 h2⟩
  · intro ud cd heq
    unfold selectComputerFirst at heq
    rcases h1 : dice[chosenIdx]? with _ | cd0 <;> rw [h1] at heq <;>
      rcases h2 : (availableAfter dice chosenIdx)[uPick]? with _ | ud0 <;>
        rw [h2] at heq <;> simp at heq
    obtain ⟨rfl, rfl⟩ := heq
    exact ⟨rfl, availableAfter_getElem dice chosenIdx uPick ud0 h2⟩

/-- Witness for C8 on the spec's three dice with the user-first choice `0`
and pool draw `1`. -/
theorem c8_witness :
    availableAfter [diceA, diceB, diceC] 0 = ([diceA, diceB, diceC] : List Dice).eraseIdx 0 ∧
    (∀ p ∈ availableEntries [diceA, diceB, diceC] 0, p.1 ≠ 0) ∧
    (∀ ud cd, selectUserFirst [diceA, diceB, diceC] 0 1 = some (ud, cd) →
      ([diceA, diceB, diceC] : List Dice)[0]? = some ud ∧
      ∃ j, j ≠ 0 ∧ ([diceA, diceB, diceC] : List Dice)[j]? = some cd) ∧
    (∀ ud cd, selectComputerFirst [diceA, diceB, diceC] 0 1 = some (ud, cd) →
      ([diceA, diceB, diceC] : List Dice)[0]? = some cd ∧
      ∃ j, j ≠ 0 ∧ ([diceA, diceB, diceC] : List Dice)[j]? = some ud) :=
  c8_dice_exclusivity [diceA, diceB, diceC] 0 1 1

/-- C9: a completed fair roll for a die with `max ≥ 1` faces returns an
index in `[0, max)`, so the face lookup at that index is in-bounds and
yields an actual face value. -/
theorem c9_roll_index_in_bounds (hmacPrim : String → String → String) (max : Nat)
    (comms : List Commitment) (inputs : List RawInput)
    (dg : String) (c : Commitment) (r : Nat)
    (hmax : 0 < max)
    (heq : fairRollRun hmacPrim max comms inputs = RollResult.rolled dg c r) :
    r < max ∧ ∀ d : Dice, d.length = max → ∃ v, d.roll r = some v := by
  obtain ⟨_, n, hr⟩ := fairRollRun_rolled hmacPrim max comms inputs dg c r heq
  have hrm : r < max := by
    rw [hr]
    exact fairCombine_lt _ _ _ hmax
  refine ⟨hrm, ?_⟩
  intro d hd
  have hlt : r < d.values.length := by
    have hdl : d.values.length = max := hd
    rw [hdl]
    exact hrm
  unfold Dice.roll
  exact ⟨d.values[r], List.getElem?_eq_getElem hlt⟩

/-- Witness for C9 at `max = 6` with secret `4` and user number `2`. -/
theorem c9_witness :
    0 < 6 ∧
    fairRollRun (fun k msg => k ++ msg) 6 [⟨"k", 4⟩] [RawInput.text (some 2)] =
      RollResult.rolled (calculateHMAC (fun k msg => k ++ msg) "k" 4) ⟨"k", 4⟩ 0 ∧
    (0 < 6 ∧ ∀ d : Dice, d.length = 6 → ∃ v, d.roll 0 = some v) :=
  ⟨by decide, by decide,
    c9_roll_index_in_bounds (fun k msg => k ++ msg) 6 [⟨"k", 4⟩]
      [RawInput.text (some 2)] (calculateHMAC (fun k msg => k ++ msg) "k" 4)
      ⟨"k", 4⟩ 0 (by decide) (by decide)⟩

/-- C10: `verify(key, secretValue, digest)` recomputes
`HMAC(key, encode(secretValue))` and returns true exactly when the
recomputation equals `digest`; in particular a digest produced at commit
time always verifies against the later-revealed values. -/
theorem c10_verify_roundtrip (hmacPrim : String → String → String)
    (key : String) (value : Nat) (digest : String) :
    (verify hmacPrim key value digest = true ↔
      calculateHMAC hmacPrim key value = digest) ∧
    verify hmacPrim key value (calculateHMAC hmacPrim key value) = true := by
  constructor
  · unfold verify
    exact beq_iff_eq
  · unfold verify
    exact beq_self_eq_true _
